import Mathlib

/-!
Verification development for the goingenv archive engine.

The engine is shallowly embedded: pure path handling mirrors Go's
`path/filepath` cleaning on slash-separated paths, the crypto service mirrors
`internal/crypto/encryption.go`, the archive codec mirrors the archive
service (`Pack`, `Unpack`, `List`, `GetAvailableArchives`), and the scanner
mirrors `ScanFiles`.  External library primitives (AES-GCM, PBKDF2, the tar
wire format, JSON, SHA-256, regexp matching) are parameters of the embedding,
constrained only by the interface laws the stdlib guarantees.
-/

namespace GoingEnv

/-! ## Path handling: a model of slash-separated path splitting, joining and
Go's `filepath.Clean` / `filepath.Join`. -/

def splitSegs : List Char → List (List Char)
  | [] => [[]]
  | c :: cs =>
    if c = '/' then [] :: splitSegs cs
    else
      match splitSegs cs with
      | [] => [[c]]
      | s :: rest => (c :: s) :: rest

def joinCharSegs : List (List Char) → List Char
  | [] => []
  | [s] => s
  | s :: s2 :: rest => s ++ '/' :: joinCharSegs (s2 :: rest)

theorem splitSegs_ne_nil : ∀ l : List Char, splitSegs l ≠ []
  | [] => by simp [splitSegs]
  | c :: cs => by
    simp only [splitSegs]
    split
    · simp
    · split <;> simp

theorem joinCharSegs_splitSegs : ∀ l : List Char, joinCharSegs (splitSegs l) = l
  | [] => rfl
  | c :: cs => by
    have ih := joinCharSegs_splitSegs cs
    simp only [splitSegs]
    split
    · rename_i hc
      obtain ⟨s, rest, h⟩ : ∃ s rest, splitSegs cs = s :: rest := by
        cases h : splitSegs cs with
        | nil => exact absurd h (splitSegs_ne_nil cs)
        | cons s rest => exact ⟨s, rest, rfl⟩
      rw [h] at ih ⊢
      simp [joinCharSegs, hc, ih]
    · split
      · rename_i h
        exact absurd h (splitSegs_ne_nil cs)
      · rename_i s rest h
        rw [h] at ih
        cases rest with
        | nil => simp_all [joinCharSegs]
        | cons r rs => simp_all [joinCharSegs]

theorem splitSegs_append (a b : List Char) :
    splitSegs (a ++ '/' :: b) = splitSegs a ++ splitSegs b := by
  induction a with
  | nil => simp [splitSegs]
  | cons c cs ih =>
    simp only [List.cons_append, splitSegs]
    split
    · simp [ih]
    · rw [List.append_eq, ih]
      obtain ⟨s, rest, h⟩ : ∃ s rest, splitSegs cs = s :: rest := by
        cases h : splitSegs cs with
        | nil => exact absurd h (splitSegs_ne_nil cs)
        | cons s rest => exact ⟨s, rest, rfl⟩
      rw [h]
      simp

theorem splitSegs_noslash : ∀ l : List Char, '/' ∉ l → splitSegs l = [l]
  | [], _ => rfl
  | c :: cs, h => by
    have hc : ¬c = '/' := fun hc => h (by simp [hc])
    have ih := splitSegs_noslash cs (fun hm => h (List.mem_cons_of_mem _ hm))
    simp only [splitSegs, hc, if_false, ih]

theorem mem_splitSegs_noslash : ∀ (l : List Char) (s : List Char), s ∈ splitSegs l → '/' ∉ s
  | [], s, hs => by
    simp [splitSegs] at hs
    simp [hs]
  | c :: cs, s, hs => by
    by_cases hc : c = '/'
    · simp only [splitSegs, hc, if_pos rfl] at hs
      rcases List.mem_cons.mp hs with h | h
      · simp [h]
      · exact mem_splitSegs_noslash cs s h
    · simp only [splitSegs, hc, if_false] at hs
      rcases hsplit : splitSegs cs with - | ⟨t, rest⟩
      · exact absurd hsplit (splitSegs_ne_nil cs)
      · rw [hsplit] at hs
        rcases List.mem_cons.mp hs with h | h
        · subst h
          intro hmem
          rcases List.mem_cons.mp hmem with h | h
          · exact hc h.symm
          · exact mem_splitSegs_noslash cs t (by simp [hsplit]) h
        · exact mem_splitSegs_noslash cs s (by simp [hsplit, List.mem_cons, h])

theorem splitSegs_joinCharSegs :
    ∀ L : List (List Char), L ≠ [] → (∀ s ∈ L, '/' ∉ s) → splitSegs (joinCharSegs L) = L
  | [], h, _ => absurd rfl h
  | [s], _, hs => by
    simp only [joinCharSegs]
    exact splitSegs_noslash s (hs s (by simp))
  | s :: s2 :: rest, _, hs => by
    have ih := splitSegs_joinCharSegs (s2 :: rest) (by simp)
      (fun t ht => hs t (List.mem_cons_of_mem _ ht))
    simp only [joinCharSegs]
    rw [splitSegs_append, ih, splitSegs_noslash s (hs s (by simp))]
    rfl

/-- A path segment that survives cleaning unchanged: nonempty, not `.`, not `..`. -/
def GoodSeg (s : List Char) : Prop :=
  s ≠ [] ∧ s ≠ ['.'] ∧ s ≠ ['.', '.']

instance : ∀ s, Decidable (GoodSeg s) := fun s => by
  unfold GoodSeg
  infer_instance

/-- One step of Go's `filepath.Clean` over already-split segments; the
accumulator is the output stack in reverse. -/
def cleanStep (rooted : Bool) (acc : List (List Char)) (seg : List Char) : List (List Char) :=
  if seg = [] ∨ seg = ['.'] then acc
  else if seg = ['.', '.'] then
    match acc with
    | [] => if rooted then [] else [seg]
    | top :: rest => if top = ['.', '.'] then seg :: acc else rest
  else seg :: acc

def cleanSegs (rooted : Bool) (segs : List (List Char)) : List (List Char) :=
  (segs.foldl (cleanStep rooted) []).reverse

theorem foldl_cleanStep_good (rooted : Bool) :
    ∀ (segs : List (List Char)) (acc : List (List Char)),
      (∀ s ∈ segs, GoodSeg s) →
      segs.foldl (cleanStep rooted) acc = segs.reverse ++ acc
  | [], acc, _ => by simp
  | s :: rest, acc, h => by
    have hs := h s (by simp)
    have hstep : cleanStep rooted acc s = s :: acc := by
      simp only [cleanStep, hs.1, hs.2.1, hs.2.2]
      simp [hs.1, hs.2.1, hs.2.2]
    simp only [List.foldl_cons, hstep]
    rw [foldl_cleanStep_good rooted rest (s :: acc)
      (fun t ht => h t (List.mem_cons_of_mem _ ht))]
    simp

theorem cleanSegs_good (rooted : Bool) (segs : List (List Char))
    (h : ∀ s ∈ segs, GoodSeg s) : cleanSegs rooted segs = segs := by
  unfold cleanSegs
  rw [foldl_cleanStep_good rooted segs [] h]
  simp

/-- Model of Go's `filepath.Clean` on a character list. -/
def goCleanChars (l : List Char) : List Char :=
  if l = [] then ['.']
  else if l.head? == some '/' then '/' :: joinCharSegs (cleanSegs true (splitSegs l))
  else if cleanSegs false (splitSegs l) = [] then ['.']
  else joinCharSegs (cleanSegs false (splitSegs l))

/-- Model of Go's `filepath.Clean`. -/
def goClean (s : String) : String :=
  ⟨goCleanChars s.data⟩

/-- Model of Go's `filepath.Join` for two elements: join non-empty elements
with a separator, then clean. -/
def pathJoin (a b : String) : String :=
  if a = "" then (if b = "" then "" else goClean b)
  else if b = "" then goClean a
  else goClean ⟨a.data ++ '/' :: b.data⟩

/-- A stored relative path in the sense of the data model: slash-separated,
every segment nonempty and none equal to `.` or `..` (hence no leading
separator and no traversal). -/
def ValidRelPath (s : String) : Prop :=
  ∀ seg ∈ splitSegs s.data, GoodSeg seg

instance : ∀ s, Decidable (ValidRelPath s) := fun s => by
  unfold ValidRelPath
  infer_instance

theorem validRelPath_ne_empty {s : String} (h : ValidRelPath s) : s ≠ "" := by
  intro he
  subst he
  have := h [] (by simp [splitSegs])
  exact this.1 rfl

theorem validRelPath_head {s : String} (h : ValidRelPath s) : s.data.head? ≠ some '/' := by
  intro hh
  cases hs : s.data with
  | nil => rw [hs] at hh; simp at hh
  | cons c cs =>
    rw [hs] at hh
    simp at hh
    have : ([] : List Char) ∈ splitSegs s.data := by
      rw [hs, hh]
      simp [splitSegs]
    exact (h [] this).1 rfl

theorem goCleanChars_valid (l : List Char) (hne : l ≠ []) (hhead : l.head? ≠ some '/')
    (hgood : ∀ s ∈ splitSegs l, GoodSeg s) : goCleanChars l = l := by
  unfold goCleanChars
  rw [if_neg hne, if_neg (by simp [hhead]), cleanSegs_good false _ hgood,
    if_neg (splitSegs_ne_nil l), joinCharSegs_splitSegs]

theorem pathJoin_valid {a b : String} (ha : ValidRelPath a) (hb : ValidRelPath b) :
    pathJoin a b = ⟨a.data ++ '/' :: b.data⟩ := by
  have hane : a ≠ "" := validRelPath_ne_empty ha
  have hbne : b ≠ "" := validRelPath_ne_empty hb
  unfold pathJoin
  rw [if_neg hane, if_neg hbne]
  unfold goClean
  congr 1
  show goCleanChars (a.data ++ '/' :: b.data) = a.data ++ '/' :: b.data
  have hhead : (a.data ++ '/' :: b.data).head? ≠ some '/' := by
    cases hd : a.data with
    | nil =>
      exfalso
      apply hane
      cases a
      simp only at hd
      simp [hd]
    | cons c cs =>
      have h1 := validRelPath_head ha
      rw [hd] at h1
      simp only [List.cons_append, List.head?] at h1 ⊢
      exact h1
  apply goCleanChars_valid
  · simp
  · exact hhead
  · intro s hs
    rw [splitSegs_append] at hs
    rcases List.mem_append.mp hs with h | h
    · exact ha s h
    · exact hb s h

theorem pathJoin_valid_inj {t a b : String} (ht : ValidRelPath t)
    (ha : ValidRelPath a) (hb : ValidRelPath b)
    (h : pathJoin t a = pathJoin t b) : a = b := by
  rw [pathJoin_valid ht ha, pathJoin_valid ht hb] at h
  have hd : t.data ++ '/' :: a.data = t.data ++ '/' :: b.data := congrArg String.data h
  have hab : a.data = b.data := by
    have := List.append_cancel_left hd
    simpa using this
  cases a
  cases b
  exact congrArg String.mk (by simpa using hab)

/-- Base filename: the last slash-separated segment (Go `filepath.Base` on a
relative path without trailing slash). -/
def baseName (s : String) : String :=
  ⟨(splitSegs s.data).getLastD []⟩

/-- Number of path separators in a string (`strings.Count(s, "/")`). -/
def countSlashes (s : String) : Nat :=
  s.data.countP (· == '/')

/-- Model of `strings.HasSuffix`. -/
def strHasSuffix (s suffix : String) : Bool :=
  List.isSuffixOf suffix.data s.data

/-! ## Crypto service (`internal/crypto/encryption.go`) -/

structure CryptoError where
  operation : String
  msg : String
deriving DecidableEq, Repr

def cryptoErrStr (e : CryptoError) : String :=
  "crypto " ++ e.operation ++ " error: " ++ e.msg

def SaltSize : Nat := 32

def NonceSize : Nat := 12

def KeySize : Nat := 32

def PBKDF2Iterations : Nat := 100000

/-- The external primitives used by the crypto service: PBKDF2-HMAC-SHA256 key
derivation and the AES-256-GCM seal/open pair, abstracted as functions.  The
single interface law used in proofs (GCM opens what it seals) is taken as an
explicit hypothesis where needed. -/
structure CryptoPrims where
  kdf : String → List Nat → Nat → Nat → List Nat
  gcmSeal : List Nat → List Nat → List Nat → List Nat
  gcmOpen : List Nat → List Nat → List Nat → Option (List Nat)

/-- `Service.Encrypt`: reject empty data, then empty password; derive a key
from the password and the (randomly drawn) salt; return
`salt ‖ nonce ‖ gcm_seal(key, nonce, data)`.  Randomness is modelled by
passing the drawn salt and nonce as arguments. -/
def Encrypt (c : CryptoPrims) (salt nonce : List Nat) (data : List Nat)
    (password : String) : Except CryptoError (List Nat) :=
  if data.length = 0 then .error ⟨"encrypt", "data cannot be empty"⟩
  else if password = "" then .error ⟨"encrypt", "password cannot be empty"⟩
  else
    let key := c.kdf password salt PBKDF2Iterations KeySize
    .ok (salt ++ nonce ++ c.gcmSeal key nonce data)

/-- `Service.Decrypt`: reject inputs shorter than `SaltSize + NonceSize`
(44 bytes), then an empty password; split salt, nonce and ciphertext; derive
the key; run GCM open, collapsing any failure into one generic message. -/
def Decrypt (c : CryptoPrims) (data : List Nat) (password : String) :
    Except CryptoError (List Nat) :=
  if data.length < SaltSize + NonceSize then
    .error ⟨"decrypt", "invalid encrypted data: too short"⟩
  else if password = "" then .error ⟨"decrypt", "password cannot be empty"⟩
  else
    let salt := data.take SaltSize
    let nonce := (data.drop SaltSize).take NonceSize
    let ciphertext := data.drop (SaltSize + NonceSize)
    let key := c.kdf password salt PBKDF2Iterations KeySize
    match c.gcmOpen key nonce ciphertext with
    | some plaintext => .ok plaintext
    | none => .error ⟨"decrypt", "decryption failed: invalid password or corrupted data"⟩

/-! ## Data model (`pkg/types`) -/

structure EnvFile where
  path : String
  relativePath : String
  size : Int
  modTime : Int
  checksum : String
deriving DecidableEq, Repr

structure Archive where
  createdAt : Int
  files : List EnvFile
  totalSize : Int
  description : String
  version : String
deriving DecidableEq, Repr

structure ArchiveError where
  operation : String
  path : String
  msg : String
deriving DecidableEq, Repr

structure PackOptions where
  files : List EnvFile
  outputPath : String
  password : String
  description : String
deriving DecidableEq, Repr

structure UnpackOptions where
  archivePath : String
  password : String
  targetDir : String
  overwrite : Bool
  backup : Bool
deriving DecidableEq, Repr

/-! ## Filesystem model: a flat association list from paths to file data. -/

structure FileData where
  content : List Nat
  mode : Nat
  mtime : Int
deriving DecidableEq, Repr

abbrev FS := List (String × FileData)

def fsLookup : FS → String → Option FileData
  | [], _ => none
  | (k, v) :: rest, p => if k = p then some v else fsLookup rest p

def fsInsert (fs : FS) (p : String) (d : FileData) : FS :=
  (p, d) :: fs

def fsRemove (fs : FS) (p : String) : FS :=
  fs.filter (fun kv => !(kv.1 = p : Bool))

/-- Model of `os.Rename` used for `.backup` files. -/
def fsRename (fs : FS) (src dst : String) : FS :=
  match fsLookup fs src with
  | some d => fsInsert (fsRemove fs src) dst d
  | none => fs

theorem fsLookup_insert_same (fs : FS) (p : String) (d : FileData) :
    fsLookup (fsInsert fs p d) p = some d := by
  simp [fsInsert, fsLookup]

theorem fsLookup_insert_ne (fs : FS) (p q : String) (d : FileData) (h : p ≠ q) :
    fsLookup (fsInsert fs p d) q = fsLookup fs q := by
  simp [fsInsert, fsLookup, h]

/-! ## Archive codec (`internal/archive`, `src/unnamed/part_005`) -/

/-- One member of the (plaintext) tar stream: header name, mode, mtime and
body bytes.  The tar wire format itself is abstracted by a `TarCodec`. -/
structure TarEntry where
  name : String
  mode : Nat
  mtime : Int
  content : List Nat
deriving DecidableEq, Repr

/-- The external `archive/tar` writer/reader pair, abstracted: `ser` writes a
sequence of members to bytes, `parse` reads them back. -/
structure TarCodec where
  ser : List TarEntry → List Nat
  parse : List Nat → Option (List TarEntry)

/-- Manifest construction in `Service.Pack`: `total_size` is the sum of the
record sizes, version is `"1.0.0"`. -/
def mkArchive (opts : PackOptions) (now : Int) : Archive :=
  { createdAt := now
    files := opts.files
    totalSize := opts.files.foldl (fun acc f => acc + f.size) 0
    description := opts.description
    version := "1.0.0" }

/-- `writeMetadata`: the manifest is serialized to JSON (abstracted by
`jsonEnc`) and written as a tar member named `metadata.json` with mode 0644
and the zero mtime (the source sets no `ModTime` on this header). -/
def metadataEntry (jsonEnc : Archive → List Nat) (a : Archive) : TarEntry :=
  { name := "metadata.json", mode := 0o644, mtime := 0, content := jsonEnc a }

/-- `writeFileToTar`, iterated over the record list: each file is stat'ed and
read at pack time; a missing file aborts the pack. -/
def packEntries (fs : FS) : List EnvFile → Except ArchiveError (List TarEntry)
  | [] => .ok []
  | f :: rest =>
    match fsLookup fs f.path with
    | some d =>
      match packEntries fs rest with
      | .ok es => .ok (⟨f.relativePath, d.mode, d.mtime, d.content⟩ :: es)
      | .error e => .error e
    | none => .error ⟨"pack", f.path, "failed to write file to archive: failed to stat file"⟩

/-- `Service.Pack`: reject an empty file list; build the manifest; write the
manifest and then every file into a tar stream; encrypt; the resulting bytes
are what `os.WriteFile` stores at the output path. -/
def Pack (c : CryptoPrims) (tc : TarCodec) (jsonEnc : Archive → List Nat)
    (salt nonce : List Nat) (now : Int) (fs : FS) (opts : PackOptions) :
    Except ArchiveError (List Nat) :=
  if opts.files.length = 0 then
    .error ⟨"pack", opts.outputPath, "no files to pack"⟩
  else
    match packEntries fs opts.files with
    | .error e => .error e
    | .ok es =>
      let tarData := tc.ser (metadataEntry jsonEnc (mkArchive opts now) :: es)
      match Encrypt c salt nonce tarData opts.password with
      | .ok enc => .ok enc
      | .error e =>
        .error ⟨"pack", opts.outputPath, "failed to encrypt data: " ++ cryptoErrStr e⟩

/-- Filesystem side effects of one `Pack` call, in program order: the
temporary tar scratch file is created in the system temp directory
(`os.CreateTemp("", "goingenv-*.tar")`), the ciphertext is written directly
to the output path with `os.WriteFile`, and the deferred `os.Remove` deletes
the scratch file.  There is no rename anywhere. -/
inductive FsOp where
  | createTemp : FsOp
  | writeOutput (path : String) (bytes : List Nat) : FsOp
  | removeTemp : FsOp
  | renameOp (src dst : String) : FsOp
deriving DecidableEq, Repr

def FsOp.isWriteOutput : FsOp → Bool
  | .writeOutput _ _ => true
  | _ => false

def FsOp.isRename : FsOp → Bool
  | .renameOp _ _ => true
  | _ => false

def PackTrace (c : CryptoPrims) (tc : TarCodec) (jsonEnc : Archive → List Nat)
    (salt nonce : List Nat) (now : Int) (fs : FS) (opts : PackOptions) : List FsOp :=
  if opts.files.length = 0 then []
  else
    match packEntries fs opts.files with
    | .error _ => [.createTemp, .removeTemp]
    | .ok es =>
      let tarData := tc.ser (metadataEntry jsonEnc (mkArchive opts now) :: es)
      match Encrypt c salt nonce tarData opts.password with
      | .ok enc => [.createTemp, .writeOutput opts.outputPath enc, .removeTemp]
      | .error _ => [.createTemp, .removeTemp]

/-- The body of the `Unpack` extraction loop for one tar member: skip
`metadata.json`, join the member name onto the target directory
(`filepath.Join`, which cleans), honour the overwrite/backup flags for an
existing file, then write content, mode and mtime. -/
def unpackStep (opts : UnpackOptions) (fs : FS) (e : TarEntry) : FS :=
  if e.name = "metadata.json" then fs
  else
    let target := pathJoin opts.targetDir e.name
    match fsLookup fs target with
    | some _ =>
      if !opts.overwrite then fs
      else if opts.backup then
        fsInsert (fsRename fs target (target ++ ".backup")) target ⟨e.content, e.mode, e.mtime⟩
      else fsInsert fs target ⟨e.content, e.mode, e.mtime⟩
    | none => fsInsert fs target ⟨e.content, e.mode, e.mtime⟩

/-- `Service.Unpack`: read the container, decrypt, then iterate over the tar
members.  There is no check that the first member is `metadata.json` and no
path-traversal guard on member names. -/
def Unpack (c : CryptoPrims) (tc : TarCodec) (opts : UnpackOptions) (fs : FS) :
    Except ArchiveError FS :=
  match fsLookup fs opts.archivePath with
  | none => .error ⟨"unpack", opts.archivePath, "failed to read archive"⟩
  | some ad =>
    match Decrypt c ad.content opts.password with
    | .error e =>
      .error ⟨"unpack", opts.archivePath, "failed to decrypt archive: " ++ cryptoErrStr e⟩
    | .ok tarData =>
      match tc.parse tarData with
      | none => .error ⟨"unpack", opts.archivePath, "failed to read tar header"⟩
      | some entries => .ok (entries.foldl (unpackStep opts) fs)

/-- `Service.List`: read, decrypt, read the first tar header; it must be
`metadata.json`, whose body is then JSON-decoded into the manifest. -/
def ListArchive (c : CryptoPrims) (tc : TarCodec) (jsonDec : List Nat → Option Archive)
    (fs : FS) (archivePath password : String) : Except ArchiveError Archive :=
  match fsLookup fs archivePath with
  | none => .error ⟨"list", archivePath, "failed to read archive"⟩
  | some ad =>
    match Decrypt c ad.content password with
    | .error e =>
      .error ⟨"list", archivePath, "failed to decrypt archive: " ++ cryptoErrStr e⟩
    | .ok tarData =>
      match tc.parse tarData with
      | none => .error ⟨"list", archivePath, "failed to read metadata"⟩
      | some [] => .error ⟨"list", archivePath, "failed to read metadata"⟩
      | some (e :: _) =>
        if e.name ≠ "metadata.json" then
          .error ⟨"list", archivePath, "invalid archive format: missing metadata"⟩
        else
          match jsonDec e.content with
          | some a => .ok a
          | none => .error ⟨"list", archivePath, "failed to unmarshal metadata"⟩

/-- A directory entry as returned by `os.ReadDir` (only the name and the
directory bit matter to the code). -/
structure DirEntry where
  name : String
  isDir : Bool
deriving DecidableEq, Repr

/-- `Service.GetAvailableArchives`: default the directory to `.goingenv`;
return an empty list when it does not exist; otherwise keep the non-directory
entries whose name ends in `.enc`, joined onto the directory.
`dirs` models the directory listing of the filesystem (`none` = absent). -/
def GetAvailableArchives (dirs : String → Option (List DirEntry)) (dir : String) :
    Except String (List String) :=
  let d := if dir = "" then ".goingenv" else dir
  match dirs d with
  | none => .ok []
  | some entries =>
    .ok ((entries.filter (fun e => !e.isDir && strHasSuffix e.name ".enc")).map
      (fun e => pathJoin d e.name))

/-! ## Scanner (`internal/scanner`, `ScanFiles` in `src/internal/cli/root.go`
lines 591-737 of the concatenated sources) -/

structure Config where
  defaultDepth : Int
  envPatterns : List String
  envExcludePatterns : List String
  excludePatterns : List String
  maxFileSize : Int
deriving DecidableEq, Repr

structure ScanOptions where
  rootPath : String
  maxDepth : Int
  patterns : List String
  envExcludePatterns : List String
  excludePatterns : List String
deriving DecidableEq, Repr

structure ValidationError where
  field : String
  message : String
deriving DecidableEq, Repr

/-- `Manager.Validate` from `internal/config/config.go`. -/
def ValidateConfig (c : Config) : Option ValidationError :=
  if c.defaultDepth < 1 ∨ c.defaultDepth > 10 then
    some ⟨"DefaultDepth", "must be between 1 and 10"⟩
  else if c.envPatterns.length = 0 then
    some ⟨"EnvPatterns", "must have at least one pattern"⟩
  else if c.maxFileSize ≤ 0 then
    some ⟨"MaxFileSize", "must be greater than 0"⟩
  else none

/-- The zero-value defaulting prelude of `ScanFiles`: empty root becomes `.`,
`MaxDepth == 0` becomes `Config.DefaultDepth`, and empty pattern lists fall
back to the corresponding `Config` lists. -/
def applyScanDefaults (cfg : Config) (o : ScanOptions) : ScanOptions :=
  let o1 := if o.rootPath = "" then { o with rootPath := "." } else o
  let o2 := if o1.maxDepth = 0 then { o1 with maxDepth := cfg.defaultDepth } else o1
  let o3 := if o2.patterns.length = 0 then { o2 with patterns := cfg.envPatterns } else o2
  let o4 := if o3.envExcludePatterns.length = 0 then
    { o3 with envExcludePatterns := cfg.envExcludePatterns } else o3
  if o4.excludePatterns.length = 0 then
    { o4 with excludePatterns := cfg.excludePatterns } else o4

/-- An in-memory directory tree standing for the filesystem under the scan
root.  Regular files carry size, mtime and content. -/
inductive FsNode where
  | file (name : String) (size : Int) (mtime : Int) (content : List Nat)
  | dir (name : String) (children : List FsNode)
deriving Repr

def FsNode.name : FsNode → String
  | .file n _ _ _ => n
  | .dir n _ => n

/-- Regex matching (`regexp.MatchString`) abstracted: `m pattern s` decides
whether `pattern` matches `s`.  A pattern list matches when any member does. -/
def anyMatch (m : String → String → Bool) (pats : List String) (s : String) : Bool :=
  pats.any (fun p => m p s)

/-- `filepath.Rel(root, path)` along the walk: the root itself is `.`,
everything below joins the accumulated segments with `/`. -/
def relPathOf (segs : List String) : String :=
  if segs = [] then "." else ⟨joinCharSegs (segs.map String.data)⟩

/-- The walk path handed to the exclude-pattern matcher
(`filepath.Walk` passes `filepath.Join(root, ...)`). -/
def fullPathOf (root : String) (segs : List String) : String :=
  pathJoin root (relPathOf segs)

mutual

/-- Every name in the tree is free of path separators (true of any real
directory tree). -/
def noSlashTreeB : FsNode → Bool
  | .file n _ _ _ => n.data.all (fun c => !(c = '/' : Bool))
  | .dir n children => n.data.all (fun c => !(c = '/' : Bool)) && noSlashListB children

def noSlashListB : List FsNode → Bool
  | [] => true
  | c :: cs => noSlashTreeB c && noSlashListB cs

end

mutual

/-- The walk callback of `ScanFiles` below the root, at the node whose
relative path is `pre ++ [node name]`: compute the depth as the number of
separators in the relative path and prune on `depth > MaxDepth`; prune
excluded directories; skip oversized files, files matching no include
pattern, and files matching an env-exclude pattern; otherwise emit a record
with the file's SHA-256 digest (abstracted by `hash`). -/
def walkNode (cfg : Config) (m : String → String → Bool) (hash : List Nat → String)
    (o : ScanOptions) (pre : List String) : FsNode → List EnvFile
  | .file name size mtime content =>
    let segs := pre ++ [name]
    let rel := relPathOf segs
    if (countSlashes rel : Int) > o.maxDepth then []
    else if size > cfg.maxFileSize then []
    else if !anyMatch m o.patterns name then []
    else if anyMatch m o.envExcludePatterns name then []
    else
      [{ path := fullPathOf o.rootPath segs, relativePath := rel, size := size,
         modTime := mtime, checksum := hash content }]
  | .dir name children =>
    let segs := pre ++ [name]
    let rel := relPathOf segs
    if (countSlashes rel : Int) > o.maxDepth then []
    else if anyMatch m o.excludePatterns (fullPathOf o.rootPath segs ++ "/") then []
    else walkList cfg m hash o segs children

/-- The walk continued over a directory's entries, in order. -/
def walkList (cfg : Config) (m : String → String → Bool) (hash : List Nat → String)
    (o : ScanOptions) (segs : List String) : List FsNode → List EnvFile
  | [] => []
  | c :: cs => walkNode cfg m hash o segs c ++ walkList cfg m hash o segs cs

end

/-- `Service.ScanFiles`: apply the defaulting prelude, then walk the tree
from the root (the root directory itself is visited at relative path `.`,
depth 0, and is subject to the directory-exclude check). -/
def ScanFiles (cfg : Config) (m : String → String → Bool) (hash : List Nat → String)
    (o0 : ScanOptions) (rootChildren : List FsNode) : List EnvFile :=
  let o := applyScanDefaults cfg o0
  if (0 : Int) > o.maxDepth then []
  else if anyMatch m o.excludePatterns (o.rootPath ++ "/") then []
  else walkList cfg m hash o [] rootChildren

/-! ## Concrete instantiations of the abstract primitives, used to witness
the theorems on concrete inputs. -/

/-- A trivial AEAD/KDF instance satisfying the GCM interface law: sealing
appends a 16-byte tag, opening strips it. -/
def cryptoModel : CryptoPrims where
  kdf := fun _ _ _ _ => []
  gcmSeal := fun _ _ pt => pt ++ List.replicate 16 0
  gcmOpen := fun _ _ ct => if 16 ≤ ct.length then some (ct.take (ct.length - 16)) else none

/-- An AEAD instance whose open always succeeds; used only to show that a
result depends on the primitives (i.e. that the code reached them). -/
def cryptoModelPermissive : CryptoPrims where
  kdf := fun _ _ _ _ => []
  gcmSeal := fun _ _ pt => pt
  gcmOpen := fun _ _ _ => some [7]

theorem cryptoModel_open_seal (k n pt : List Nat) :
    cryptoModel.gcmOpen k n (cryptoModel.gcmSeal k n pt) = some pt := by
  simp [cryptoModel]

/-- Concrete entry encoding for the executable tar codec: length-prefixed
name (as character codes), mode, mtime (split into positive and negative
parts), then length-prefixed content. -/
def encEntry (e : TarEntry) : List Nat :=
  e.name.data.length :: (e.name.data.map Char.toNat ++
    e.mode :: e.mtime.toNat :: (-e.mtime).toNat :: e.content.length :: e.content)

def encTar (es : List TarEntry) : List Nat :=
  es.foldr (fun e acc => encEntry e ++ acc) []

def decEntry : List Nat → Option (TarEntry × List Nat)
  | [] => none
  | nl :: rest =>
    let nameCodes := rest.take nl
    if nameCodes.length = nl then
      match rest.drop nl with
      | mode :: mp :: mn :: cl :: rest2 =>
        let content := rest2.take cl
        if content.length = cl then
          some (⟨⟨nameCodes.map Char.ofNat⟩, mode, (mp : Int) - (mn : Int), content⟩,
            rest2.drop cl)
        else none
      | _ => none
    else none

def decTar : Nat → List Nat → Option (List TarEntry)
  | _, [] => some []
  | 0, _ :: _ => none
  | fuel + 1, l =>
    match decEntry l with
    | some (e, rest) => (decTar fuel rest).map (e :: ·)
    | none => none

/-- The executable tar codec used to instantiate `TarCodec` in witnesses. -/
def tarCodecModel : TarCodec where
  ser := encTar
  parse := fun l => decTar l.length l

theorem decEntry_encEntry (e : TarEntry) (rest : List Nat) :
    decEntry (encEntry e ++ rest) = some (e, rest) := by
  obtain ⟨name, mode, mtime, content⟩ := e
  have hname : (name.data.map Char.toNat).map Char.ofNat = name.data := by
    rw [List.map_map]
    simp [Function.comp_def, Char.ofNat_toNat]
  have hmk : (⟨name.data⟩ : String) = name := by cases name; rfl
  have hint : ((mtime.toNat : Int)) - (((-mtime).toNat : Int)) = mtime := by omega
  simp only [encEntry, List.cons_append, List.append_assoc, decEntry]
  rw [List.take_left' (by simp), List.drop_left' (by simp)]
  simp only [List.length_map, if_pos rfl, List.take_left, List.drop_left]
  rw [hname, hmk, hint]
  simp

theorem le_encTar_length : ∀ es : List TarEntry, es.length ≤ (encTar es).length
  | [] => by simp [encTar]
  | e :: tl => by
    have ih := le_encTar_length tl
    have : encTar (e :: tl) = encEntry e ++ encTar tl := rfl
    rw [this]
    simp only [List.length_cons, List.length_append, encEntry]
    simp
    omega

theorem decTar_encTar : ∀ (es : List TarEntry) (fuel : Nat), es.length ≤ fuel →
    decTar fuel (encTar es) = some es := by
  intro es
  induction es with
  | nil =>
    intro fuel _
    cases fuel <;> simp [encTar, decTar]
  | cons e tl ih =>
    intro fuel h
    cases fuel with
    | zero => simp at h
    | succ f =>
      have hstep : decTar (f + 1) (encTar (e :: tl))
          = match decEntry (encEntry e ++ encTar tl) with
            | some (x, rest) => (decTar f rest).map (x :: ·)
            | none => none := rfl
      rw [hstep, decEntry_encEntry e (encTar tl)]
      simp only [ih f (by simpa using h)]
      rfl

theorem tarCodecModel_round (es : List TarEntry) :
    tarCodecModel.parse (tarCodecModel.ser es) = some es :=
  decTar_encTar es _ (le_encTar_length es)

/-- Structural induction over the directory tree. -/
theorem FsNode.inductionOn (motive : FsNode → Prop)
    (hf : ∀ nm sz mt ct, motive (.file nm sz mt ct))
    (hd : ∀ nm ch, (∀ c ∈ ch, motive c) → motive (.dir nm ch)) :
    ∀ n, motive n
  | .file nm sz mt ct => hf nm sz mt ct
  | .dir nm ch => hd nm ch (fun c hc => FsNode.inductionOn motive hf hd c)
termination_by n => sizeOf n
decreasing_by
  simp_wf
  have := List.sizeOf_lt_of_mem hc
  omega

/-! ## Helper lemmas about the embedded operations -/

theorem decrypt_encrypt (c : CryptoPrims)
    (hopen : ∀ k n pt, c.gcmOpen k n (c.gcmSeal k n pt) = some pt)
    (salt nonce data : List Nat) (pw : String)
    (hs : salt.length = SaltSize) (hn : nonce.length = NonceSize)
    (hp : pw ≠ "") :
    Decrypt c (salt ++ nonce ++ c.gcmSeal (c.kdf pw salt PBKDF2Iterations KeySize) nonce data) pw
      = .ok data := by
  rw [List.append_assoc]
  unfold Decrypt
  have hlen : ¬(salt ++ (nonce ++ c.gcmSeal (c.kdf pw salt PBKDF2Iterations KeySize) nonce
      data)).length < SaltSize + NonceSize := by
    simp only [List.length_append, hs, hn]
    omega
  rw [if_neg hlen, if_neg hp]
  have htake : (salt ++ (nonce ++ c.gcmSeal (c.kdf pw salt PBKDF2Iterations KeySize) nonce
      data)).take SaltSize = salt := List.take_left' hs
  have hdrop : (salt ++ (nonce ++ c.gcmSeal (c.kdf pw salt PBKDF2Iterations KeySize) nonce
      data)).drop SaltSize = nonce ++ c.gcmSeal (c.kdf pw salt PBKDF2Iterations KeySize) nonce
      data := List.drop_left' hs
  have htake2 : ((nonce ++ c.gcmSeal (c.kdf pw salt PBKDF2Iterations KeySize) nonce
      data)).take NonceSize = nonce := List.take_left' hn
  have hdrop2 : (salt ++ (nonce ++ c.gcmSeal (c.kdf pw salt PBKDF2Iterations KeySize) nonce
      data)).drop (SaltSize + NonceSize) = c.gcmSeal (c.kdf pw salt PBKDF2Iterations KeySize)
      nonce data := by
    rw [← List.append_assoc]
    exact List.drop_left' (by simp [hs, hn])
  simp only [htake, hdrop, htake2, hdrop2, hopen]

theorem encrypt_ok_inv {c : CryptoPrims} {salt nonce data : List Nat} {pw : String}
    {enc : List Nat} (h : Encrypt c salt nonce data pw = .ok enc) :
    data.length ≠ 0 ∧ pw ≠ "" ∧
      enc = salt ++ nonce ++ c.gcmSeal (c.kdf pw salt PBKDF2Iterations KeySize) nonce data := by
  unfold Encrypt at h
  by_cases h1 : data.length = 0
  · rw [if_pos h1] at h
    simp at h
  · rw [if_neg h1] at h
    by_cases h2 : pw = ""
    · rw [if_pos h2] at h
      simp at h
    · rw [if_neg h2] at h
      simp only [Except.ok.injEq] at h
      exact ⟨h1, h2, h.symm⟩

/-- The relation packing establishes between an input record and the tar
member written for it. -/
def packedAs (fs : FS) (f : EnvFile) (e : TarEntry) : Prop :=
  ∃ d, fsLookup fs f.path = some d ∧ e = ⟨f.relativePath, d.mode, d.mtime, d.content⟩

theorem packEntries_ok {fs : FS} : ∀ {l : List EnvFile} {es : List TarEntry},
    packEntries fs l = .ok es → List.Forall₂ (packedAs fs) l es := by
  intro l
  induction l with
  | nil =>
    intro es h
    simp only [packEntries, Except.ok.injEq] at h
    subst h
    exact List.Forall₂.nil
  | cons f rest ih =>
    intro es h
    unfold packEntries at h
    cases hl : fsLookup fs f.path with
    | none =>
      rw [hl] at h
      simp at h
    | some d =>
      rw [hl] at h
      cases hr : packEntries fs rest with
      | error e =>
        rw [hr] at h
        simp at h
      | ok es2 =>
        rw [hr] at h
        simp only [Except.ok.injEq] at h
        subst h
        exact List.Forall₂.cons ⟨d, hl, rfl⟩ (ih hr)

theorem forall2_mem_left {α β : Type} {R : α → β → Prop} :
    ∀ {l : List α} {l2 : List β}, List.Forall₂ R l l2 → ∀ a ∈ l, ∃ b ∈ l2, R a b := by
  intro l l2 h
  induction h with
  | nil => simp
  | cons hr _ ih =>
    intro a ha
    rcases List.mem_cons.mp ha with h1 | h1
    · exact ⟨_, by simp, h1 ▸ hr⟩
    · obtain ⟨b, hb, hR⟩ := ih a h1
      exact ⟨b, by simp [hb], hR⟩

theorem forall2_mem_right {α β : Type} {R : α → β → Prop} :
    ∀ {l : List α} {l2 : List β}, List.Forall₂ R l l2 → ∀ b ∈ l2, ∃ a ∈ l, R a b := by
  intro l l2 h
  induction h with
  | nil => simp
  | cons hr _ ih =>
    intro b hb
    rcases List.mem_cons.mp hb with h1 | h1
    · exact ⟨_, by simp, h1 ▸ hr⟩
    · obtain ⟨a, ha, hR⟩ := ih b h1
      exact ⟨a, by simp [ha], hR⟩

theorem forall2_packedAs_names {fs : FS} : ∀ {l : List EnvFile} {es : List TarEntry},
    List.Forall₂ (packedAs fs) l es →
    es.map TarEntry.name = l.map EnvFile.relativePath := by
  intro l es h
  induction h with
  | nil => simp
  | cons hr _ ih =>
    obtain ⟨d, _, he⟩ := hr
    simp only [List.map_cons, ih, he]

theorem pack_ok_inv {c : CryptoPrims} {tc : TarCodec} {jsonEnc : Archive → List Nat}
    {salt nonce : List Nat} {now : Int} {fs : FS} {opts : PackOptions} {enc : List Nat}
    (h : Pack c tc jsonEnc salt nonce now fs opts = .ok enc) :
    ∃ es, packEntries fs opts.files = .ok es ∧ opts.password ≠ "" ∧
      enc = salt ++ nonce ++ c.gcmSeal (c.kdf opts.password salt PBKDF2Iterations KeySize) nonce
        (tc.ser (metadataEntry jsonEnc (mkArchive opts now) :: es)) := by
  unfold Pack at h
  by_cases h0 : opts.files.length = 0
  · rw [if_pos h0] at h
    simp at h
  · rw [if_neg h0] at h
    cases hpe : packEntries fs opts.files with
    | error e =>
      rw [hpe] at h
      simp at h
    | ok es =>
      rw [hpe] at h
      simp only at h
      cases henc : Encrypt c salt nonce
          (tc.ser (metadataEntry jsonEnc (mkArchive opts now) :: es)) opts.password with
      | error e =>
        rw [henc] at h
        simp at h
      | ok x =>
        rw [henc] at h
        simp only [Except.ok.injEq] at h
        subst h
        obtain ⟨_, hp, heq⟩ := encrypt_ok_inv henc
        exact ⟨es, rfl, hp, heq⟩

def entryData (e : TarEntry) : FileData :=
  ⟨e.content, e.mode, e.mtime⟩

theorem unpackStep_fresh (uo : UnpackOptions) (fs : FS) (e : TarEntry)
    (hname : e.name ≠ "metadata.json")
    (hfresh : fsLookup fs (pathJoin uo.targetDir e.name) = none) :
    unpackStep uo fs e = fsInsert fs (pathJoin uo.targetDir e.name) (entryData e) := by
  unfold unpackStep
  rw [if_neg hname]
  simp only [hfresh]
  rfl

theorem unpack_fold (uo : UnpackOptions) :
    ∀ (es : List TarEntry) (fs : FS),
      (∀ e ∈ es, e.name ≠ "metadata.json") →
      (es.map (fun e => pathJoin uo.targetDir e.name)).Nodup →
      (∀ e ∈ es, fsLookup fs (pathJoin uo.targetDir e.name) = none) →
      (∀ e ∈ es, fsLookup (es.foldl (unpackStep uo) fs) (pathJoin uo.targetDir e.name)
          = some (entryData e)) ∧
      (∀ q, (∀ e ∈ es, pathJoin uo.targetDir e.name ≠ q) →
          fsLookup (es.foldl (unpackStep uo) fs) q = fsLookup fs q) := by
  intro es
  induction es with
  | nil => simp
  | cons a tl ih =>
    intro fs hnames hnodup hfresh
    rw [List.map_cons] at hnodup
    have hpair := List.nodup_cons.mp hnodup
    have hstep : unpackStep uo fs a = fsInsert fs (pathJoin uo.targetDir a.name) (entryData a) :=
      unpackStep_fresh uo fs a (hnames a (by simp)) (hfresh a (by simp))
    have hne : ∀ x ∈ tl, pathJoin uo.targetDir x.name ≠ pathJoin uo.targetDir a.name := by
      intro x hx heq
      exact hpair.1 (heq ▸ List.mem_map_of_mem _ hx)
    have hfresh2 : ∀ x ∈ tl,
        fsLookup (fsInsert fs (pathJoin uo.targetDir a.name) (entryData a))
          (pathJoin uo.targetDir x.name) = none := by
      intro x hx
      rw [fsLookup_insert_ne _ _ _ _ (fun h => hne x hx h.symm)]
      exact hfresh x (by simp [hx])
    obtain ⟨A, B⟩ := ih (fsInsert fs (pathJoin uo.targetDir a.name) (entryData a))
      (fun x hx => hnames x (by simp [hx])) hpair.2 hfresh2
    have hfold : (a :: tl).foldl (unpackStep uo) fs
        = tl.foldl (unpackStep uo) (fsInsert fs (pathJoin uo.targetDir a.name) (entryData a)) := by
      rw [List.foldl_cons, hstep]
    refine ⟨?_, ?_⟩
    · intro x hx
      rcases List.mem_cons.mp hx with h1 | h1
      · subst h1
        rw [hfold, B _ hne]
        exact fsLookup_insert_same _ _ _
      · rw [hfold]
        exact A x h1
    · intro q hq
      rw [hfold, B q (fun y hy => hq y (by simp [hy]))]
      exact fsLookup_insert_ne _ _ _ _ (hq a (by simp))

theorem nodup_map_pathJoin (td : String) (htd : ValidRelPath td) :
    ∀ (l : List String), (∀ s ∈ l, ValidRelPath s) → l.Nodup →
      (l.map (pathJoin td)).Nodup := by
  intro l
  induction l with
  | nil => simp
  | cons a tl ih =>
    intro hv hnd
    simp only [List.map_cons, List.nodup_cons] at hnd ⊢
    refine ⟨?_, ih (fun s hs => hv s (by simp [hs])) hnd.2⟩
    intro hmem
    obtain ⟨b, hb, heq⟩ := List.mem_map.mp hmem
    have hab : b = a := pathJoin_valid_inj htd (hv b (by simp [hb])) (hv a (by simp)) heq
    exact hnd.1 (hab ▸ hb)

/-- A record's stored checksum agrees with the hash of the file's current
content (the scanner computed it from the same bytes). -/
def checksumOK (hash : List Nat → String) (fs : FS) (f : EnvFile) : Bool :=
  match fsLookup fs f.path with
  | some d => f.checksum == hash d.content
  | none => true

/-! ## Claim theorems -/

/-- C1 (amended): for every list of FileRecords with distinct, well-formed
relative paths none of which is named `metadata.json`, and every password
under which `Pack` succeeds, unpacking the resulting container with the same
password into an empty target directory reproduces every file byte-for-byte
with its original mode and mtime, and the manifest digest of every extracted
file verifies.  Quantified over any AEAD obeying the GCM open/seal law and
any tar codec obeying the write/read round-trip law. -/
theorem c1_roundtrip_amended
    (c : CryptoPrims) (tc : TarCodec) (jsonEnc : Archive → List Nat)
    (hash : List Nat → String) (salt nonce : List Nat) (now : Int)
    (fs : FS) (opts : PackOptions) (uo : UnpackOptions) (enc : List Nat)
    (contMode : Nat) (contTime : Int)
    (hopen : ∀ k n pt, c.gcmOpen k n (c.gcmSeal k n pt) = some pt)
    (htar : ∀ es, tc.parse (tc.ser es) = some es)
    (hsalt : salt.length = SaltSize) (hnonce : nonce.length = NonceSize)
    (hpw : uo.password = opts.password)
    (hdist : (opts.files.map EnvFile.relativePath).Nodup)
    (hvalid : ∀ f ∈ opts.files, ValidRelPath f.relativePath)
    (hmeta : ∀ f ∈ opts.files, f.relativePath ≠ "metadata.json")
    (htd : ValidRelPath uo.targetDir)
    (hck : ∀ f ∈ opts.files, checksumOK hash fs f = true)
    (hfresh : ∀ f ∈ opts.files, fsLookup fs (pathJoin uo.targetDir f.relativePath) = none)
    (harc : ∀ f ∈ opts.files, pathJoin uo.targetDir f.relativePath ≠ uo.archivePath)
    (hpack : Pack c tc jsonEnc salt nonce now fs opts = .ok enc) :
    ∃ fs2, Unpack c tc uo (fsInsert fs uo.archivePath ⟨enc, contMode, contTime⟩) = .ok fs2 ∧
      ∀ f ∈ opts.files, ∃ d, fsLookup fs f.path = some d ∧
        fsLookup fs2 (pathJoin uo.targetDir f.relativePath) = some d ∧
        hash d.content = f.checksum := by
  obtain ⟨es, hpe, hppw, heq⟩ := pack_ok_inv hpack
  have hF := packEntries_ok hpe
  have hnamesmap : es.map TarEntry.name = opts.files.map EnvFile.relativePath :=
    forall2_packedAs_names hF
  have hmem_r := forall2_mem_right hF
  have hmem_l := forall2_mem_left hF
  have hnames_es : ∀ e ∈ es, e.name ≠ "metadata.json" := by
    intro e he
    obtain ⟨f, hf, d, _, hed⟩ := hmem_r e he
    rw [hed]
    exact hmeta f hf
  have hvalid_es : ∀ e ∈ es, ValidRelPath e.name := by
    intro e he
    obtain ⟨f, hf, d, _, hed⟩ := hmem_r e he
    rw [hed]
    exact hvalid f hf
  have hnodup_es : (es.map (fun e => pathJoin uo.targetDir e.name)).Nodup := by
    have h1 : es.map (fun e => pathJoin uo.targetDir e.name)
        = (es.map TarEntry.name).map (pathJoin uo.targetDir) := by
      rw [List.map_map]
      rfl
    rw [h1, hnamesmap]
    apply nodup_map_pathJoin uo.targetDir htd
    · intro s hs
      obtain ⟨f, hf, hfs⟩ := List.mem_map.mp hs
      exact hfs ▸ hvalid f hf
    · exact hdist
  set fs1 : FS := fsInsert fs uo.archivePath ⟨enc, contMode, contTime⟩ with hfs1
  have hfresh_es : ∀ e ∈ es, fsLookup fs1 (pathJoin uo.targetDir e.name) = none := by
    intro e he
    obtain ⟨f, hf, d, _, hed⟩ := hmem_r e he
    rw [hed]
    rw [hfs1, fsLookup_insert_ne _ _ _ _ (fun h => harc f hf h.symm)]
    exact hfresh f hf
  obtain ⟨A, B⟩ := unpack_fold uo es fs1 hnames_es hnodup_es hfresh_es
  have hmetastep : unpackStep uo fs1 (metadataEntry jsonEnc (mkArchive opts now)) = fs1 := by
    unfold unpackStep metadataEntry
    simp
  have hdec : Decrypt c enc uo.password
      = .ok (tc.ser (metadataEntry jsonEnc (mkArchive opts now) :: es)) := by
    rw [hpw, heq]
    exact decrypt_encrypt c hopen salt nonce _ opts.password hsalt hnonce hppw
  have hunpack : Unpack c tc uo fs1 = .ok (es.foldl (unpackStep uo) fs1) := by
    unfold Unpack
    rw [hfs1, fsLookup_insert_same]
    simp only [hdec, htar (metadataEntry jsonEnc (mkArchive opts now) :: es)]
    rw [List.foldl_cons, hmetastep]
  refine ⟨es.foldl (unpackStep uo) fs1, hunpack, ?_⟩
  intro f hf
  obtain ⟨e, he, d, hd, hed⟩ := hmem_l f hf
  refine ⟨d, hd, ?_, ?_⟩
  · have := A e he
    rw [hed] at this
    simpa [entryData] using this
  · have hok := hck f hf
    simp only [checksumOK, hd, beq_iff_eq] at hok
    exact hok.symm

/-- A FileRecord whose relative path is literally `metadata.json`: a legal
record under the data model's path rules, but `Unpack` skips every tar member
with that name. -/
def c1FileRecord : EnvFile :=
  ⟨"/p/metadata.json", "metadata.json", 1, 7, "h"⟩

def c1Fs : FS :=
  [("/p/metadata.json", ⟨[65], 420, 7⟩)]

def c1PackOpts : PackOptions :=
  ⟨[c1FileRecord], "out.enc", "pw", ""⟩

def c1Enc : List Nat :=
  match Pack cryptoModel tarCodecModel (fun _ => [0]) (List.replicate 32 0)
      (List.replicate 12 0) 0 c1Fs c1PackOpts with
  | .ok e => e
  | .error _ => []

def c1UnpackOpts : UnpackOptions :=
  ⟨"a.enc", "pw", "t", false, false⟩

def c1Fs1 : FS :=
  fsInsert c1Fs "a.enc" ⟨c1Enc, 420, 0⟩

def c1Result : FS :=
  match Unpack cryptoModel tarCodecModel c1UnpackOpts c1Fs1 with
  | .ok f => f
  | .error _ => []

/-- C1 counterexample: packing the single record with distinct (trivially)
relative paths and non-empty password `pw` succeeds, unpacking succeeds, yet
nothing is extracted at `t/metadata.json` — the round trip does not reproduce
the file, because `Unpack` skips every member named `metadata.json`. -/
theorem c1_roundtrip_counterexample :
    Pack cryptoModel tarCodecModel (fun _ => [0]) (List.replicate 32 0)
        (List.replicate 12 0) 0 c1Fs c1PackOpts = .ok c1Enc ∧
    Unpack cryptoModel tarCodecModel c1UnpackOpts c1Fs1 = .ok c1Result ∧
    fsLookup c1Result (pathJoin "t" "metadata.json") = none := by
  refine ⟨rfl, rfl, ?_⟩
  rfl

def w1Fs : FS :=
  [("/p/.env", ⟨[65], 420, 7⟩)]

def w1PackOpts : PackOptions :=
  ⟨[⟨"/p/.env", ".env", 1, 7, "h"⟩], "out.enc", "pw", ""⟩

def w1Enc : List Nat :=
  match Pack cryptoModel tarCodecModel (fun _ => [0]) (List.replicate 32 0)
      (List.replicate 12 0) 0 w1Fs w1PackOpts with
  | .ok e => e
  | .error _ => []

/-- Witness for C1 (amended) at a concrete record, filesystem and password. -/
theorem c1_roundtrip_witness :
    ∃ fs2, Unpack cryptoModel tarCodecModel ⟨"a.enc", "pw", "t", false, false⟩
        (fsInsert w1Fs "a.enc" ⟨w1Enc, 420, 0⟩) = .ok fs2 ∧
      ∀ f ∈ w1PackOpts.files, ∃ d, fsLookup w1Fs f.path = some d ∧
        fsLookup fs2 (pathJoin "t" f.relativePath) = some d ∧
        (fun _ : List Nat => "h") d.content = f.checksum :=
  c1_roundtrip_amended cryptoModel tarCodecModel (fun _ => [0]) (fun _ => "h")
    (List.replicate 32 0) (List.replicate 12 0) 0 w1Fs w1PackOpts
    ⟨"a.enc", "pw", "t", false, false⟩ w1Enc 420 0
    cryptoModel_open_seal tarCodecModel_round (by decide) (by decide) rfl
    (by decide) (by decide) (by decide) (by decide) (by decide) (by decide)
    (by decide) rfl

/-- A crafted container whose decrypted tar stream contains the member
`../etc/passwd`. -/
def c2TravTar : List Nat :=
  encTar [⟨"../etc/passwd", 493, 0, [65]⟩]

def c2Container : List Nat :=
  List.replicate 44 0 ++ c2TravTar ++ List.replicate 16 0

def c2Fs : FS :=
  [("a.enc", ⟨c2Container, 420, 0⟩)]

def c2UnpackOpts : UnpackOptions :=
  ⟨"a.enc", "pw", "sandbox", false, false⟩

/-- C2: the code has no path-traversal guard.  Unpacking a container whose
tar stream names `../etc/passwd` with target directory `sandbox` succeeds
(no `ArchiveError`) and writes the file at `etc/passwd` — the cleaned result
of `filepath.Join("sandbox", "../etc/passwd")` — which lies outside the
target directory. -/
theorem c2_traversal_bug :
    Unpack cryptoModel tarCodecModel c2UnpackOpts c2Fs
      = .ok (("etc/passwd", ⟨[65], 493, 0⟩) :: c2Fs) ∧
    pathJoin "sandbox" "../etc/passwd" = "etc/passwd" :=
  ⟨rfl, rfl⟩

/-- C3 counterexample: a 50-byte input (short of the claimed 60-byte bound
but past the code's 44-byte check) is not rejected as truncated: with an AEAD
whose open fails it produces the generic auth-failure error, and with an AEAD
whose open succeeds it decrypts — so the outcome depends on the primitives,
i.e. key derivation and decryption are attempted. -/
theorem c3_truncation_counterexample :
    Decrypt cryptoModel (List.replicate 50 0) "pw"
      = .error ⟨"decrypt", "decryption failed: invalid password or corrupted data"⟩ ∧
    Decrypt cryptoModelPermissive (List.replicate 50 0) "pw" = .ok [7] :=
  ⟨rfl, rfl⟩

/-- C3 (amended): every input shorter than `SaltSize + NonceSize = 44` bytes
is rejected with `CryptoError{op: decrypt, msg: "invalid encrypted data: too
short"}`; the result is the same for every primitive instance and every
password, so the rejection happens before any key derivation or decryption. -/
theorem c3_truncation_amended (c : CryptoPrims) (data : List Nat) (pw : String)
    (h : data.length < SaltSize + NonceSize) :
    Decrypt c data pw = .error ⟨"decrypt", "invalid encrypted data: too short"⟩ := by
  unfold Decrypt
  rw [if_pos h]

/-- Witness for C3 (amended) at a concrete 43-byte input. -/
theorem c3_truncation_witness :
    Decrypt cryptoModel (List.replicate 43 0) "pw"
      = .error ⟨"decrypt", "invalid encrypted data: too short"⟩ :=
  c3_truncation_amended cryptoModel (List.replicate 43 0) "pw" (by decide)

/-- C9: on any input of length at least 44 bytes, `Decrypt` with the empty
password fails with `CryptoError{op: decrypt, msg: "password cannot be
empty"}`; the result is the same for every primitive instance, so no key
derivation or authentication is performed. -/
theorem c9_decrypt_empty_password (c : CryptoPrims) (data : List Nat)
    (h : SaltSize + NonceSize ≤ data.length) :
    Decrypt c data "" = .error ⟨"decrypt", "password cannot be empty"⟩ := by
  unfold Decrypt
  rw [if_neg (by omega), if_pos rfl]

/-- Witness for C9 at a concrete 44-byte input. -/
theorem c9_decrypt_empty_password_witness :
    Decrypt cryptoModel (List.replicate 44 0) ""
      = .error ⟨"decrypt", "password cannot be empty"⟩ :=
  c9_decrypt_empty_password cryptoModel (List.replicate 44 0) (by decide)

/-- C4 counterexample: a successful pack's filesystem trace is a direct
`WriteFile` of the ciphertext to the output path (flanked by the temp tar
scratch file's creation and removal); it contains no rename at all, so the
claimed write-to-sibling-temp-then-rename mechanism is absent. -/
theorem c4_atomic_write_counterexample :
    PackTrace cryptoModel tarCodecModel (fun _ => [0]) (List.replicate 32 0)
        (List.replicate 12 0) 0 w1Fs w1PackOpts
      = [.createTemp, .writeOutput "out.enc" w1Enc, .removeTemp] ∧
    (PackTrace cryptoModel tarCodecModel (fun _ => [0]) (List.replicate 32 0)
        (List.replicate 12 0) 0 w1Fs w1PackOpts).all (fun op => !op.isRename) = true :=
  ⟨rfl, rfl⟩

/-- C4 (amended): the pack output is written by one direct `os.WriteFile`,
never via a rename; when `Pack` fails, no write to the output path occurs at
all, so the prior content is untouched (atomicity against a crash in the
middle of the single `WriteFile` is not provided). -/
theorem c4_write_amended (c : CryptoPrims) (tc : TarCodec) (jsonEnc : Archive → List Nat)
    (salt nonce : List Nat) (now : Int) (fs : FS) (opts : PackOptions) (e : ArchiveError)
    (h : Pack c tc jsonEnc salt nonce now fs opts = .error e) :
    (PackTrace c tc jsonEnc salt nonce now fs opts).all
      (fun op => !op.isWriteOutput && !op.isRename) = true := by
  unfold Pack at h
  unfold PackTrace
  by_cases h0 : opts.files.length = 0
  · rw [if_pos h0]
    rfl
  · rw [if_neg h0] at h ⊢
    cases hpe : packEntries fs opts.files with
    | error e2 =>
      simp [hpe, FsOp.isWriteOutput, FsOp.isRename]
    | ok es =>
      rw [hpe] at h
      simp only at h
      cases henc : Encrypt c salt nonce
          (tc.ser (metadataEntry jsonEnc (mkArchive opts now) :: es)) opts.password with
      | error e3 =>
        simp [hpe, henc, FsOp.isWriteOutput, FsOp.isRename]
      | ok x =>
        rw [henc] at h
        simp at h

def c4FailOpts : PackOptions :=
  ⟨[], "out.enc", "pw", ""⟩

/-- Witness for C4 (amended) at a concrete failing pack (empty file list). -/
theorem c4_write_amended_witness :
    (PackTrace cryptoModel tarCodecModel (fun _ => [0]) (List.replicate 32 0)
      (List.replicate 12 0) 0 [] c4FailOpts).all
      (fun op => !op.isWriteOutput && !op.isRename) = true :=
  c4_write_amended cryptoModel tarCodecModel (fun _ => [0]) (List.replicate 32 0)
    (List.replicate 12 0) 0 [] c4FailOpts ⟨"pack", "out.enc", "no files to pack"⟩ rfl

/-- A container whose decrypted tar stream's first member is `foo`, not
`metadata.json`. -/
def c5Tar : List Nat :=
  encTar [⟨"foo", 420, 3, [66]⟩]

def c5Container : List Nat :=
  List.replicate 44 0 ++ c5Tar ++ List.replicate 16 0

def c5Fs : FS :=
  [("a.enc", ⟨c5Container, 420, 0⟩)]

def c5UnpackOpts : UnpackOptions :=
  ⟨"a.enc", "pw", "t", false, false⟩

/-- C5 counterexample: unpacking a container whose first tar member is `foo`
(not `metadata.json`) does not fail with a bad-format error and does not
extract nothing: it succeeds and writes `t/foo`.  `Unpack` never checks the
first member's name. -/
theorem c5_badformat_counterexample :
    Unpack cryptoModel tarCodecModel c5UnpackOpts c5Fs
      = .ok (("t/foo", ⟨[66], 420, 3⟩) :: c5Fs) :=
  rfl

/-- C5 (amended): the first-member-must-be-`metadata.json` check lives in
`List`, not `Unpack`: for every container whose decrypted tar stream's first
member is not named `metadata.json`, `List` fails with `ArchiveError{op:
list, msg: "invalid archive format: missing metadata"}`; `Unpack` performs no
such check and extracts the members, skipping any named `metadata.json`. -/
theorem c5_list_badformat (c : CryptoPrims) (tc : TarCodec)
    (jsonDec : List Nat → Option Archive) (fs : FS) (apath pw : String)
    (ad : FileData) (tarData : List Nat) (e : TarEntry) (rest : List TarEntry)
    (hread : fsLookup fs apath = some ad)
    (hdec : Decrypt c ad.content pw = .ok tarData)
    (hparse : tc.parse tarData = some (e :: rest))
    (hname : e.name ≠ "metadata.json") :
    ListArchive c tc jsonDec fs apath pw
      = .error ⟨"list", apath, "invalid archive format: missing metadata"⟩ := by
  unfold ListArchive
  simp only [hread, hdec, hparse]
  rw [if_pos hname]

/-- Witness for C5 (amended) at the concrete `foo`-first container. -/
theorem c5_list_badformat_witness :
    ListArchive cryptoModel tarCodecModel (fun _ => none) c5Fs "a.enc" "pw"
      = .error ⟨"list", "a.enc", "invalid archive format: missing metadata"⟩ :=
  c5_list_badformat cryptoModel tarCodecModel (fun _ => none) c5Fs "a.enc" "pw"
    ⟨c5Container, 420, 0⟩ c5Tar ⟨"foo", 420, 3, [66]⟩ [] rfl rfl rfl (by decide)

/-! ## Scanner lemmas -/

theorem string_mk_data (s : String) : (⟨s.data⟩ : String) = s := by
  cases s
  rfl

theorem mem_walkList (cfg : Config) (m : String → String → Bool) (hash : List Nat → String)
    (o : ScanOptions) (segs : List String) :
    ∀ (cs : List FsNode) (r : EnvFile),
      r ∈ walkList cfg m hash o segs cs ↔ ∃ c ∈ cs, r ∈ walkNode cfg m hash o segs c := by
  intro cs
  induction cs with
  | nil =>
    intro r
    simp [walkList]
  | cons c rest ih =>
    intro r
    simp only [walkList, List.mem_append, ih r, List.mem_cons]
    constructor
    · rintro (h | ⟨c2, hc2, hr⟩)
      · exact ⟨c, Or.inl rfl, h⟩
      · exact ⟨c2, Or.inr hc2, hr⟩
    · rintro ⟨c2, hc2 | hc2, hr⟩
      · subst hc2
        exact Or.inl hr
      · exact Or.inr ⟨c2, hc2, hr⟩

theorem walkNode_depth (cfg : Config) (m : String → String → Bool)
    (hash : List Nat → String) (o : ScanOptions) :
    ∀ n : FsNode, ∀ (pre : List String) (r : EnvFile),
      r ∈ walkNode cfg m hash o pre n →
      ¬((countSlashes r.relativePath : Int) > o.maxDepth) := by
  apply FsNode.inductionOn
  · intro nm sz mt ct pre r hr
    simp only [walkNode] at hr
    by_cases h1 : (countSlashes (relPathOf (pre ++ [nm])) : Int) > o.maxDepth
    · rw [if_pos h1] at hr
      simp at hr
    · rw [if_neg h1] at hr
      have hrel : r.relativePath = relPathOf (pre ++ [nm]) := by
        split at hr
        · simp at hr
        · split at hr
          · simp at hr
          · split at hr
            · simp at hr
            · simp at hr
              simp [hr]
      rw [hrel]
      exact h1
  · intro nm ch ihch pre r hr
    simp only [walkNode] at hr
    split at hr
    · simp at hr
    · split at hr
      · simp at hr
      · obtain ⟨c, hc, hrc⟩ := (mem_walkList cfg m hash o (pre ++ [nm]) ch r).mp hr
        exact ihch c hc (pre ++ [nm]) r hrc

theorem noSlashListB_mem :
    ∀ (cs : List FsNode), noSlashListB cs = true → ∀ c ∈ cs, noSlashTreeB c = true := by
  intro cs
  induction cs with
  | nil => simp
  | cons c rest ih =>
    intro h x hx
    simp only [noSlashListB, Bool.and_eq_true] at h
    rcases List.mem_cons.mp hx with h1 | h1
    · exact h1 ▸ h.1
    · exact ih h.2 x h1

theorem noSlash_of_all {s : String}
    (h : s.data.all (fun c => !(c = '/' : Bool)) = true) : '/' ∉ s.data := by
  intro hmem
  have := List.all_eq_true.mp h '/' hmem
  simp at this

theorem baseName_relPathOf (pre : List String) (nm : String)
    (hpre : ∀ s ∈ pre, '/' ∉ s.data) (hnm : '/' ∉ nm.data) :
    baseName (relPathOf (pre ++ [nm])) = nm := by
  have hne : pre ++ [nm] ≠ [] := by simp
  unfold relPathOf
  rw [if_neg hne]
  unfold baseName
  have hsplit : splitSegs (joinCharSegs ((pre ++ [nm]).map String.data))
      = (pre ++ [nm]).map String.data := by
    apply splitSegs_joinCharSegs
    · simp
    · intro s hs
      obtain ⟨t, ht, hts⟩ := List.mem_map.mp hs
      rcases List.mem_append.mp ht with h1 | h1
      · exact hts ▸ hpre t h1
      · have : t = nm := by simpa using h1
        exact hts ▸ (this ▸ hnm)
  show (⟨(splitSegs (⟨joinCharSegs ((pre ++ [nm]).map String.data)⟩ : String).data).getLastD []⟩
      : String) = nm
  have hdata : (⟨joinCharSegs ((pre ++ [nm]).map String.data)⟩ : String).data
      = joinCharSegs ((pre ++ [nm]).map String.data) := rfl
  rw [hdata, hsplit]
  rw [List.map_append]
  simp only [List.map_cons, List.map_nil, List.getLastD_concat]

theorem walkNode_patterns (cfg : Config) (m : String → String → Bool)
    (hash : List Nat → String) (o : ScanOptions) :
    ∀ n : FsNode, ∀ (pre : List String) (r : EnvFile),
      noSlashTreeB n = true →
      (∀ s ∈ pre, '/' ∉ s.data) →
      r ∈ walkNode cfg m hash o pre n →
      anyMatch m o.patterns (baseName r.relativePath) = true ∧
      anyMatch m o.envExcludePatterns (baseName r.relativePath) = false := by
  apply FsNode.inductionOn
  · intro nm sz mt ct pre r hns hpre hr
    have hnm : '/' ∉ nm.data := noSlash_of_all (by simpa [noSlashTreeB] using hns)
    simp only [walkNode] at hr
    split at hr
    · simp at hr
    · split at hr
      · simp at hr
      · split at hr
        · simp at hr
        · split at hr
          · simp at hr
          · rename_i hinc hexc
            simp at hr
            have hrel : r.relativePath = relPathOf (pre ++ [nm]) := by simp [hr]
            rw [hrel, baseName_relPathOf pre nm hpre hnm]
            constructor
            · simpa using hinc
            · simpa using hexc
  · intro nm ch ihch pre r hns hpre hr
    simp only [noSlashTreeB, Bool.and_eq_true] at hns
    simp only [walkNode] at hr
    split at hr
    · simp at hr
    · split at hr
      · simp at hr
      · obtain ⟨c, hc, hrc⟩ := (mem_walkList cfg m hash o (pre ++ [nm]) ch r).mp hr
        apply ihch c hc (pre ++ [nm]) r (noSlashListB_mem ch hns.2 c hc)
        · intro s hs
          rcases List.mem_append.mp hs with h1 | h1
          · exact hpre s h1
          · have : s = nm := by simpa using h1
            exact this ▸ noSlash_of_all hns.1
        · exact hrc

/-- C6: no emitted FileRecord's relative path contains more than the
effective `MaxDepth` separators (first conjunct, over any tree, matcher and
options); and a file whose relative path contains exactly `MaxDepth`
separators still passes the depth guard and is emitted whenever the size and
pattern checks pass (second conjunct, at the file's visit in the walk) —
depth 0 meaning the root itself. -/
theorem c6_depth_bound :
    (∀ (cfg : Config) (m : String → String → Bool) (hash : List Nat → String)
        (o : ScanOptions) (root : List FsNode) (r : EnvFile),
        r ∈ ScanFiles cfg m hash o root →
        ¬((countSlashes r.relativePath : Int) > (applyScanDefaults cfg o).maxDepth)) ∧
    (∀ (cfg : Config) (m : String → String → Bool) (hash : List Nat → String)
        (o : ScanOptions) (pre : List String) (nm : String) (sz mt : Int) (ct : List Nat),
        (countSlashes (relPathOf (pre ++ [nm])) : Int) = o.maxDepth →
        ¬sz > cfg.maxFileSize →
        anyMatch m o.patterns nm = true →
        anyMatch m o.envExcludePatterns nm = false →
        walkNode cfg m hash o pre (.file nm sz mt ct)
          = [⟨fullPathOf o.rootPath (pre ++ [nm]), relPathOf (pre ++ [nm]), sz, mt, hash ct⟩]) := by
  constructor
  · intro cfg m hash o root r hr
    simp only [ScanFiles] at hr
    split at hr
    · simp at hr
    · split at hr
      · simp at hr
      · obtain ⟨c, hc, hrc⟩ :=
          (mem_walkList cfg m hash (applyScanDefaults cfg o) [] root r).mp hr
        exact walkNode_depth cfg m hash (applyScanDefaults cfg o) c [] r hrc
  · intro cfg m hash o pre nm sz mt ct hd hsz hinc hexc
    simp only [walkNode]
    rw [if_neg (by rw [hd]; exact lt_irrefl _), if_neg hsz]
    rw [if_neg (by simp [hinc]), if_neg (by simp [hexc])]

def scanCfg : Config :=
  ⟨3, ["p"], [], [], 100⟩

def scanOpts : ScanOptions :=
  ⟨"root", 1, ["p"], [], []⟩

def scanOptsB : ScanOptions :=
  ⟨"root", 0, ["p"], [], []⟩

def mAll : String → String → Bool :=
  fun _ _ => true

/-- Witness for C6: a concrete scan's record respects the depth bound, and a
concrete file with exactly `MaxDepth` separators (here 0, directly under the
root) is emitted. -/
theorem c6_depth_bound_witness :
    ¬((countSlashes (⟨pathJoin "root" "f", relPathOf ["f"], 1, 0, "h"⟩ : EnvFile).relativePath
        : Int) > (applyScanDefaults scanCfg scanOpts).maxDepth) ∧
    walkNode scanCfg mAll (fun _ => "h") scanOptsB [] (.file "f" 1 0 [])
      = [⟨fullPathOf scanOptsB.rootPath ["f"], relPathOf ["f"], 1, 0,
          (fun _ : List Nat => "h") []⟩] :=
  ⟨c6_depth_bound.1 scanCfg mAll (fun _ => "h") scanOpts [.file "f" 1 0 []]
      ⟨pathJoin "root" "f", relPathOf ["f"], 1, 0, "h"⟩ (by decide),
   c6_depth_bound.2 scanCfg mAll (fun _ => "h") scanOptsB [] "f" 1 0 []
      (by decide) (by decide) (by decide) (by decide)⟩

/-- C7: a regular file whose base filename matches both an include pattern
and an env-exclude pattern is never emitted: no record of a scan (over a tree
with separator-free names) has a base filename matching both families —
env-exclusion takes precedence over inclusion. -/
theorem c7_env_exclude_precedence (cfg : Config) (m : String → String → Bool)
    (hash : List Nat → String) (o : ScanOptions) (root : List FsNode) (r : EnvFile)
    (hns : noSlashListB root = true)
    (hr : r ∈ ScanFiles cfg m hash o root) :
    ¬(anyMatch m (applyScanDefaults cfg o).patterns (baseName r.relativePath) = true ∧
      anyMatch m (applyScanDefaults cfg o).envExcludePatterns (baseName r.relativePath)
        = true) := by
  rintro ⟨-, hexc⟩
  simp only [ScanFiles] at hr
  split at hr
  · simp at hr
  · split at hr
    · simp at hr
    · obtain ⟨c, hc, hrc⟩ :=
        (mem_walkList cfg m hash (applyScanDefaults cfg o) [] root r).mp hr
      have := walkNode_patterns cfg m hash (applyScanDefaults cfg o) c [] r
        (noSlashListB_mem root hns c hc) (by simp) hrc
      rw [this.2] at hexc
      exact Bool.false_ne_true hexc

/-- Witness for C7 at a concrete tree and scan. -/
theorem c7_env_exclude_precedence_witness :
    ¬(anyMatch mAll (applyScanDefaults scanCfg scanOpts).patterns
        (baseName (⟨pathJoin "root" "f", relPathOf ["f"], 1, 0, "h"⟩ : EnvFile).relativePath)
        = true ∧
      anyMatch mAll (applyScanDefaults scanCfg scanOpts).envExcludePatterns
        (baseName (⟨pathJoin "root" "f", relPathOf ["f"], 1, 0, "h"⟩ : EnvFile).relativePath)
        = true) :=
  c7_env_exclude_precedence scanCfg mAll (fun _ => "h") scanOpts [.file "f" 1 0 []]
    ⟨pathJoin "root" "f", relPathOf ["f"], 1, 0, "h"⟩ (by decide) (by decide)

/-- C10: `ScanFiles` treats zero-valued options as absent — an empty root
path becomes `.`, `MaxDepth = 0` becomes `Config.DefaultDepth`, and empty
pattern lists become the corresponding `Config` defaults; consequently, for
any configuration that passed `Validate` (`DefaultDepth` in 1..10,
`EnvPatterns` non-empty), no caller can obtain an effective scan with depth
bound 0 or with no include patterns. -/
theorem c10_scan_defaults (cfg : Config) (o : ScanOptions)
    (hv : ValidateConfig cfg = none) :
    (applyScanDefaults cfg o).rootPath = (if o.rootPath = "" then "." else o.rootPath) ∧
    (applyScanDefaults cfg o).maxDepth
      = (if o.maxDepth = 0 then cfg.defaultDepth else o.maxDepth) ∧
    (applyScanDefaults cfg o).patterns
      = (if o.patterns.length = 0 then cfg.envPatterns else o.patterns) ∧
    (applyScanDefaults cfg o).envExcludePatterns
      = (if o.envExcludePatterns.length = 0 then cfg.envExcludePatterns
         else o.envExcludePatterns) ∧
    (applyScanDefaults cfg o).excludePatterns
      = (if o.excludePatterns.length = 0 then cfg.excludePatterns else o.excludePatterns) ∧
    (applyScanDefaults cfg o).rootPath ≠ "" ∧
    (applyScanDefaults cfg o).maxDepth ≠ 0 ∧
    (applyScanDefaults cfg o).patterns ≠ [] := by
  have hcfg : 1 ≤ cfg.defaultDepth ∧ cfg.envPatterns ≠ [] := by
    unfold ValidateConfig at hv
    by_cases h1 : cfg.defaultDepth < 1 ∨ cfg.defaultDepth > 10
    · rw [if_pos h1] at hv
      simp at hv
    · rw [if_neg h1] at hv
      by_cases h2 : cfg.envPatterns.length = 0
      · rw [if_pos h2] at hv
        simp at hv
      · push_neg at h1
        exact ⟨h1.1, fun he => h2 (by simp [he])⟩
  have hd0 : cfg.defaultDepth ≠ 0 := by omega
  have hp1 : cfg.envPatterns ≠ [] := hcfg.2
  by_cases h1 : o.rootPath = "" <;>
    by_cases h2 : o.maxDepth = 0 <;>
    by_cases h3 : o.patterns.length = 0 <;>
    by_cases h4 : o.envExcludePatterns.length = 0 <;>
    by_cases h5 : o.excludePatterns.length = 0 <;>
    simp [applyScanDefaults, h1, h2, h3, h4, h5, hd0, hp1, ← List.length_eq_zero]

def cfgValid : Config :=
  ⟨3, ["p"], [], [], 100⟩

def optsZero : ScanOptions :=
  ⟨"", 0, [], [], []⟩

/-- Witness for C10 at a validated configuration and all-zero options. -/
theorem c10_scan_defaults_witness :
    (applyScanDefaults cfgValid optsZero).rootPath
      = (if optsZero.rootPath = "" then "." else optsZero.rootPath) ∧
    (applyScanDefaults cfgValid optsZero).maxDepth
      = (if optsZero.maxDepth = 0 then cfgValid.defaultDepth else optsZero.maxDepth) ∧
    (applyScanDefaults cfgValid optsZero).patterns
      = (if optsZero.patterns.length = 0 then cfgValid.envPatterns else optsZero.patterns) ∧
    (applyScanDefaults cfgValid optsZero).envExcludePatterns
      = (if optsZero.envExcludePatterns.length = 0 then cfgValid.envExcludePatterns
         else optsZero.envExcludePatterns) ∧
    (applyScanDefaults cfgValid optsZero).excludePatterns
      = (if optsZero.excludePatterns.length = 0 then cfgValid.excludePatterns
         else optsZero.excludePatterns) ∧
    (applyScanDefaults cfgValid optsZero).rootPath ≠ "" ∧
    (applyScanDefaults cfgValid optsZero).maxDepth ≠ 0 ∧
    (applyScanDefaults cfgValid optsZero).patterns ≠ [] :=
  c10_scan_defaults cfgValid optsZero (by decide)

/-- C8: for every non-empty directory argument, `GetAvailableArchives`
returns exactly the entries that are not directories and whose name ends in
`.enc`, as paths joined onto the directory; a missing directory yields an
empty list and no error. -/
theorem c8_available_archives (dirs : String → Option (List DirEntry)) (dir : String)
    (hne : dir ≠ "") :
    (dirs dir = none → GetAvailableArchives dirs dir = .ok []) ∧
    (∀ es, dirs dir = some es →
      ∃ l, GetAvailableArchives dirs dir = .ok l ∧
        ∀ x, x ∈ l ↔ ∃ e ∈ es, e.isDir = false ∧ strHasSuffix e.name ".enc" = true ∧
          x = pathJoin dir e.name) := by
  constructor
  · intro h
    simp [GetAvailableArchives, hne, h]
  · intro es h
    refine ⟨(es.filter (fun e => !e.isDir && strHasSuffix e.name ".enc")).map
      (fun e => pathJoin dir e.name), ?_, ?_⟩
    · simp [GetAvailableArchives, hne, h]
    · intro x
      simp only [List.mem_map, List.mem_filter, Bool.and_eq_true, Bool.not_eq_true']
      constructor
      · rintro ⟨e, ⟨he, hdir, hsuf⟩, hx⟩
        exact ⟨e, he, hdir, hsuf, hx.symm⟩
      · rintro ⟨e, he, hdir, hsuf, hx⟩
        exact ⟨e, ⟨he, hdir, hsuf⟩, hx.symm⟩

def c8Dirs : String → Option (List DirEntry) :=
  fun d =>
    if d = "x" then some [⟨"a.enc", false⟩, ⟨"b.txt", false⟩, ⟨"c.enc", true⟩] else none

/-- Witness for C8: a present directory with a mix of entries, and an absent
directory. -/
theorem c8_available_archives_witness :
    (c8Dirs "y" = none → GetAvailableArchives c8Dirs "y" = .ok []) ∧
    (∀ es, c8Dirs "x" = some es →
      ∃ l, GetAvailableArchives c8Dirs "x" = .ok l ∧
        ∀ x, x ∈ l ↔ ∃ e ∈ es, e.isDir = false ∧ strHasSuffix e.name ".enc" = true ∧
          x = pathJoin "x" e.name) :=
  ⟨(c8_available_archives c8Dirs "y" (by decide)).1,
   (c8_available_archives c8Dirs "x" (by decide)).2⟩

end GoingEnv
